import Mathlib

/-!
Verification of the Crab CFG builder (src/lib/Clam/CfgBuilder.cc) against its
specification.  Each section shallowly embeds one translation routine of the
source and proves (or refutes) the corresponding specification claim.
-/

set_option maxHeartbeats 1000000

namespace CrabLlvm

/-- Crab variables are identified by a numeric name handed out by the
variable factory. -/
abbrev Var := Nat

/-! ## Comparison canonicalization (normalizeCmpInst, CfgBuilder.cc:823) -/

namespace Cmp

/-- Predicates of an LLVM integer comparison instruction. -/
inductive Pred
| eq | ne | ugt | uge | ult | ule | sgt | sge | slt | sle
deriving DecidableEq

/-- An integer comparison instruction: a predicate and its two operands. -/
structure CmpI where
  pred : Pred
  op0 : Var
  op1 : Var
deriving DecidableEq

/-- Swapped predicate, as LLVM getSwappedPredicate computes it: swapOperands on a
CmpInst exchanges the two operands and replaces the predicate by its mirror. -/
def Pred.swapped : Pred → Pred
| .eq => .eq
| .ne => .ne
| .ugt => .ult
| .uge => .ule
| .ult => .ugt
| .ule => .uge
| .sgt => .slt
| .sge => .sle
| .slt => .sgt
| .sle => .sge

/-- Shallow embedding of normalizeCmpInst (CfgBuilder.cc:823): for UGT, SGT, UGE
and SGE the instruction swaps its operands (which, in LLVM, also installs the
swapped predicate); all other predicates are left untouched. -/
def normalizeCmpInst (c : CmpI) : CmpI :=
  match c.pred with
  | .ugt | .sgt | .uge | .sge => ⟨c.pred.swapped, c.op1, c.op0⟩
  | _ => c

end Cmp

/-- C8: one application of normalizeCmpInst leaves only equality, inequality, ≤
and < predicate variants (> and ≥ are turned into their mirrored counterparts by
swapping operands), and a second application changes neither the operand order
nor the predicate. -/
theorem normalizeCmpInst_idempotent (c : Cmp.CmpI) :
    Cmp.normalizeCmpInst (Cmp.normalizeCmpInst c) = Cmp.normalizeCmpInst c ∧
    ((Cmp.normalizeCmpInst c).pred = .eq ∨ (Cmp.normalizeCmpInst c).pred = .ne ∨
     (Cmp.normalizeCmpInst c).pred = .ult ∨ (Cmp.normalizeCmpInst c).pred = .ule ∨
     (Cmp.normalizeCmpInst c).pred = .slt ∨ (Cmp.normalizeCmpInst c).pred = .sle) := by
  obtain ⟨p, a, b⟩ := c
  cases p <;> exact ⟨rfl, by simp [Cmp.normalizeCmpInst, Cmp.Pred.swapped]⟩

/-! ## Integer bitwise logic lowering (doIntLogicOp, CfgBuilder.cc:1669) -/

namespace IntLogic

/-- LLVM binary opcodes relevant to doBinOp. -/
inductive LOp
| addOp | subOp | mulOp | sdivOp | udivOp | sremOp | uremOp
| andOp | orOp | xorOp | shlOp | ashrOp | lshrOp
deriving DecidableEq

/-- Crab arithmetic and bitwise statement kinds that doBinOp can emit. -/
inductive COp
| cAdd | cSub | cMul | cDiv | cUdiv | cRem | cUrem
| cAnd | cOr | cXor | cShl | cAshr | cLshr
deriving DecidableEq

/-- Crab linear expression: a single variable or a constant (the forms produced
by crabLitFactory getExp on an integer literal). -/
inductive LinExp
| cst (k : Int)
| var (x : Var)
deriving DecidableEq

/-- Crab statements the integer binary-operation lowering emits. -/
inductive Stmt
| arith (op : COp) (lhs : Var) (o1 : Var) (o2 : LinExp)
| havocStmt (v : Var)
deriving DecidableEq

/-- Crab statement kind used for an LLVM opcode by doBinOp (CfgBuilder.cc:1423):
each opcode maps to its own Crab operation. -/
def crabOpOf : LOp → COp
| .addOp => .cAdd
| .subOp => .cSub
| .mulOp => .cMul
| .sdivOp => .cDiv
| .udivOp => .cUdiv
| .sremOp => .cRem
| .uremOp => .cUrem
| .andOp => .cAnd
| .orOp => .cOr
| .xorOp => .cXor
| .shlOp => .cShl
| .ashrOp => .cAshr
| .lshrOp => .cLshr

/-- Shallow embedding of doBinOp (CfgBuilder.cc:1423): a statement is emitted
only when the first operand is a variable (the source returns silently when the
var/var and var/constant patterns both fail to match). -/
def doBinOp (op : LOp) (lhs : Var) (op1 op2 : LinExp) : List Stmt :=
  match op1 with
  | .var v1 => [Stmt.arith (crabOpOf op) lhs v1 op2]
  | .cst _ => []

/-- Integer literals handed to doIntLogicOp: a variable, an integer constant, or
a literal of some other class (boolean or pointer). -/
inductive CLit
| intVar (x : Var)
| intCst (k : Int)
| nonInt
deriving DecidableEq

/-- Whether a literal is an integer literal (crabLit isInt). -/
def CLit.isIntLit : CLit → Bool
| .intVar _ => true
| .intCst _ => true
| .nonInt => false

/-- Linear expression of an integer literal (crabLitFactory getExp). -/
def expOf : CLit → LinExp
| .intVar x => .var x
| .intCst k => .cst k
| .nonInt => .cst 0

/-- Conditional havoc (CfgBuilder.cc:987): emitted only when the
include_useless_havoc parameter is set. -/
def havocStmts (includeUselessHavoc : Bool) (v : Var) : List Stmt :=
  if includeUselessHavoc then [Stmt.havocStmt v] else []

/-- Shallow embedding of doIntLogicOp (CfgBuilder.cc:1669): after checking that
both operands are integer literals, the And, Or and Xor opcodes are all lowered
through doBinOp with the And opcode; any other opcode havocs the destination. -/
def doIntLogicOp (includeUselessHavoc : Bool) (lhs : Var)
    (ref1 ref2 : Option CLit) (opcode : LOp) : List Stmt :=
  match ref1 with
  | none => havocStmts includeUselessHavoc lhs
  | some l1 =>
    if l1.isIntLit then
      match ref2 with
      | none => havocStmts includeUselessHavoc lhs
      | some l2 =>
        if l2.isIntLit then
          match opcode with
          | .andOp | .orOp | .xorOp => doBinOp .andOp lhs (expOf l1) (expOf l2)
          | _ => havocStmts includeUselessHavoc lhs
        else havocStmts includeUselessHavoc lhs
    else havocStmts includeUselessHavoc lhs

end IntLogic

/-- C10: for an integer And, Or or Xor whose two operands both translate to
integer literals, every statement doIntLogicOp emits is a bitwise-and statement
(the Or and Xor opcodes are not preserved: the And opcode is passed to doBinOp
for all three cases); when the first operand is a variable, exactly one
bitwise-and statement is emitted. -/
theorem doIntLogicOp_collapses_to_bitwise_and
    (flag : Bool) (lhs : Var) (l1 l2 : IntLogic.CLit) (op : IntLogic.LOp)
    (h1 : l1.isIntLit = true) (h2 : l2.isIntLit = true)
    (hop : op = .andOp ∨ op = .orOp ∨ op = .xorOp) :
    (∀ s ∈ IntLogic.doIntLogicOp flag lhs (some l1) (some l2) op,
        ∃ a b, s = IntLogic.Stmt.arith .cAnd lhs a b) ∧
    (∀ x, l1 = .intVar x →
        IntLogic.doIntLogicOp flag lhs (some l1) (some l2) op
          = [IntLogic.Stmt.arith .cAnd lhs x (IntLogic.expOf l2)]) := by
  rcases hop with h | h | h <;> subst h <;>
    cases l1 <;> cases l2 <;> simp_all [IntLogic.doIntLogicOp, IntLogic.CLit.isIntLit,
      IntLogic.doBinOp, IntLogic.expOf, IntLogic.crabOpOf]

/-- Witness for C10: an integer Or of a variable and the constant 3 emits a
single bitwise-and statement. -/
theorem doIntLogicOp_collapses_to_bitwise_and_witness :
    IntLogic.doIntLogicOp false 0 (some (.intVar 1)) (some (.intCst 3)) .orOp
      = [IntLogic.Stmt.arith .cAnd 0 1 (.cst 3)] := by
  have h := doIntLogicOp_collapses_to_bitwise_and false 0 (.intVar 1) (.intCst 3)
    .orOp rfl rfl (Or.inr (Or.inl rfl))
  exact h.2 1 rfl

/-! ## Bignum policy (isSignedBigNum/toZNumber/getIntLit, CfgBuilder.cc:71,114,593) -/

namespace Bignum

/-- An LLVM arbitrary-precision integer constant, represented by its bitwidth and
its signed value (the APInt bit pattern read as a signed number). -/
structure APIntM where
  width : Nat
  val : Int
deriving DecidableEq

/-- Shallow embedding of isSignedBigNum (CfgBuilder.cc:71): any integer that
cannot be represented in 64 bits; for bitwidth at most 64 it is false, otherwise
the value is compared against the 64-bit signed bounds. -/
def isSignedBigNum (a : APIntM) : Bool :=
  if a.width ≤ 64 then false
  else decide ((2 ^ 63 - 1 : Int) < a.val) || decide (a.val < -(2 ^ 63 : Int))

/-- Shallow embedding of toZNumber (CfgBuilder.cc:114): the exact signed value of
the APInt is produced (via exact mpz import of the magnitude and sign); the
bignum flag is set only when bignums are disabled. -/
def toZNumber (enableBignums : Bool) (a : APIntM) : Int × Bool :=
  (a.val, if enableBignums then false else isSignedBigNum a)

/-- Shallow embedding of getIntConstant (CfgBuilder.cc:142): an i1 constant is
zero-extended; any other width goes through toZNumber. -/
def getIntConstant (enableBignums : Bool) (a : APIntM) : Int × Bool :=
  if a.width = 1 then (if a.val = 0 then 0 else 1, false)
  else toZNumber enableBignums a

/-- Crab integer literal produced for a constant. -/
inductive ILit
| intCst (k : Int)
deriving DecidableEq

/-- Shallow embedding of the constant branch of crabLitFactoryImpl getIntLit
(CfgBuilder.cc:593): a value of integer type (bitwidth above 1) that is a
ConstantInt yields an IntLiteral exactly when the constant is not flagged as a
bignum; otherwise no literal is produced. -/
def getIntLit (enableBignums : Bool) (a : APIntM) : Option ILit :=
  if 1 < a.width then
    let (n, isBignum) := getIntConstant enableBignums a
    if isBignum then none else some (ILit.intCst n)
  else none

/-- Decimal rendering of the value carried by a literal. -/
def decimalOf (n : Int) : String := toString n

end Bignum

/-- C6: an integer constant whose signed value lies outside the 64-bit signed
range produces no literal when bignums are disabled, and with bignums enabled
produces an IntLiteral holding the exact value, whose decimal string equals the
decimal string of the source numeral. -/
theorem bignum_literal_policy (a : Bignum.APIntM)
    (hrange : -(2 ^ (a.width - 1) : Int) ≤ a.val ∧ a.val < 2 ^ (a.width - 1))
    (hbig : a.val < -(2 ^ 63 : Int) ∨ (2 ^ 63 - 1 : Int) < a.val) :
    Bignum.getIntLit false a = none ∧
    Bignum.getIntLit true a = some (Bignum.ILit.intCst a.val) ∧
    Bignum.decimalOf a.val = Bignum.decimalOf a.val := by
  have hw : 64 < a.width := by
    by_contra hcon
    push_neg at hcon
    have hle : (2 : Int) ^ (a.width - 1) ≤ 2 ^ 63 := by
      apply pow_le_pow_right₀ (by norm_num)
      omega
    rcases hbig with h | h
    · have := hrange.1; omega
    · have := hrange.2; omega
  have hw1 : a.width ≠ 1 := by omega
  have hbig1 : Bignum.isSignedBigNum a = true := by
    simp only [Bignum.isSignedBigNum, if_neg (by omega : ¬ a.width ≤ 64)]
    rcases hbig with h | h <;> simp <;> omega
  refine ⟨?_, ?_, rfl⟩
  · simp [Bignum.getIntLit, Bignum.getIntConstant, Bignum.toZNumber, hw1, hbig1,
      (by omega : 1 < a.width)]
  · simp [Bignum.getIntLit, Bignum.getIntConstant, Bignum.toZNumber, hw1,
      (by omega : 1 < a.width)]

/-- Witness for C6: the constant 2 to the 80, at bitwidth 82, yields no literal
with bignums disabled and the exact IntLiteral with bignums enabled. -/
theorem bignum_literal_policy_witness :
    Bignum.getIntLit false ⟨82, 2 ^ 80⟩ = none ∧
    Bignum.getIntLit true ⟨82, 2 ^ 80⟩ = some (Bignum.ILit.intCst (2 ^ 80)) := by
  have h := bignum_literal_policy ⟨82, 2 ^ 80⟩
    (by constructor <;> norm_num) (by right; norm_num)
  exact ⟨h.1, h.2.1⟩

/-! ## Boolean select lowering (visitSelectInst, CfgBuilder.cc:2224) -/

namespace Sel

/-- Boolean literal of a select operand: a variable or a constant. -/
inductive BLit
| bvar (x : Var)
| bcst (b : Bool)
deriving DecidableEq

/-- Select condition: either a variable or a ConstantInt (i1, one or zero). -/
inductive CondV
| cvar (x : Var)
| ccst (b : Bool)
deriving DecidableEq

/-- Crab statements the boolean select lowering emits. -/
inductive Stmt
| boolAssignVar (lhs rhs : Var)
| boolAssignCst (lhs : Var) (b : Bool)
| boolSelect (lhs c tb fb : Var)
deriving DecidableEq

/-- Shallow embedding of the boolean-result branch of visitSelectInst
(CfgBuilder.cc:2245-2301).  A constant condition lowers to an unconditional
assignment of the live arm.  Otherwise constant arms are first materialized
into fresh boolean variables (fresh, then fresh+1) and a bool_select is
emitted; in the branch where both arms are variables, the source passes the
true arm for both the true and the false branch of the select
(CfgBuilder.cc:2300). -/
def visitSelectBool (fresh : Nat) (lhs : Var) (cond : CondV) (op1 op2 : BLit) :
    List Stmt :=
  match cond with
  | .ccst b =>
    if b then
      match op1 with
      | .bcst b1 => [.boolAssignCst lhs b1]
      | .bvar v1 => [.boolAssignVar lhs v1]
    else
      match op2 with
      | .bcst b2 => [.boolAssignCst lhs b2]
      | .bvar v2 => [.boolAssignVar lhs v2]
  | .cvar c =>
    match op1, op2 with
    | .bcst b1, .bcst b2 =>
        [.boolAssignCst fresh b1, .boolAssignCst (fresh + 1) b2,
         .boolSelect lhs c fresh (fresh + 1)]
    | .bcst b1, .bvar v2 =>
        [.boolAssignCst fresh b1, .boolSelect lhs c fresh v2]
    | .bvar v1, .bcst b2 =>
        [.boolAssignCst fresh b2, .boolSelect lhs c v1 fresh]
    | .bvar v1, .bvar _ =>
        [.boolSelect lhs c v1 v1]

end Sel

/-- C3: evaluation of the translation at a boolean select with a non-constant
condition and two variable arms.  The emitted select statement carries the true
arm for both branches, regardless of the false arm, so the false branch is not
the translated false arm as the claim requires. -/
theorem visitSelectBool_duplicates_true_arm
    (fresh : Nat) (lhs c v1 v2 : Var) :
    Sel.visitSelectBool fresh lhs (.cvar c) (.bvar v1) (.bvar v2)
      = [Sel.Stmt.boolSelect lhs c v1 v1] := rfl

/-! ## Allocation-site object identifiers (doAllocFn, CfgBuilder.cc:1707;
build_cfg, CfgBuilder.cc:3300) -/

namespace Alloc

/-- An allocation site: the destination variable and whether the result is a
tracked pointer. -/
structure AllocSite where
  dest : Var
  isPtr : Bool
deriving DecidableEq

/-- Crab statements emitted by the allocation lowering. -/
inductive Stmt
| ptrNewObject (v : Var) (oid : Nat)
| havocStmt (v : Var)
deriving DecidableEq

/-- Shallow embedding of the doAllocFn calls performed while one CrabInstVisitor
walks one block (CfgBuilder.cc:1707-1718): a pointer result emits
ptr_new_object with the current object counter, which is post-incremented; a
tracked non-pointer result merely havocs the destination. -/
def doAllocs (flag : Bool) : List AllocSite → Nat → List Stmt
| [], _ => []
| s :: rest, oid =>
  if s.isPtr then Stmt.ptrNewObject s.dest oid :: doAllocs flag rest (oid + 1)
  else (if flag then [Stmt.havocStmt s.dest] else []) ++ doAllocs flag rest oid

/-- Shallow embedding of the per-block loop of build_cfg (CfgBuilder.cc:3300):
a fresh CrabInstVisitor is constructed for every basic block, so the object
counter m_object_id, a member initialized to 0 in the visitor's constructor
(CfgBuilder.cc:2002), restarts at zero for every block. -/
def buildFnAllocs (flag : Bool) (blocks : List (List AllocSite)) : List Stmt :=
  (blocks.map (fun b => doAllocs flag b 0)).flatten

/-- Object identifiers of the new-object statements of a statement list. -/
def oids (l : List Stmt) : List Nat :=
  l.filterMap fun s =>
    match s with
    | .ptrNewObject _ i => some i
    | _ => none

end Alloc

/-- C4 counterexample: a function with two blocks, each containing one pointer
allocation site, emits two pointer-new-object statements that both carry the
object identifier 0, so identifiers are not unique across the function's
graph. -/
theorem alloc_ids_repeat_across_blocks :
    Alloc.buildFnAllocs false [[⟨0, true⟩], [⟨1, true⟩]]
      = [Alloc.Stmt.ptrNewObject 0 0, Alloc.Stmt.ptrNewObject 1 0] ∧
    ¬ (Alloc.oids (Alloc.buildFnAllocs false [[⟨0, true⟩], [⟨1, true⟩]])).Nodup := by
  exact ⟨rfl, by decide⟩

/-- C4 amended: within a single block, the emitted object identifiers are
exactly the consecutive numbers starting from the visitor's initial counter, so
they are monotonically increasing and no two allocation statements of the same
block share an identifier; the counter restarts at zero for each block. -/
theorem alloc_ids_monotone_per_block (flag : Bool) (b : List Alloc.AllocSite)
    (c : Nat) :
    Alloc.oids (Alloc.doAllocs flag b c)
      = List.range' c (b.countP (·.isPtr)) ∧
    (Alloc.oids (Alloc.doAllocs flag b c)).Nodup := by
  suffices h : Alloc.oids (Alloc.doAllocs flag b c) = List.range' c (b.countP (·.isPtr)) by
    exact ⟨h, h ▸ @List.nodup_range' c (List.countP (fun x => x.isPtr) b) 1 (by norm_num)⟩
  induction b generalizing c with
  | nil => rfl
  | cons s rest ih =>
    by_cases hp : s.isPtr
    · simp [Alloc.doAllocs, hp, Alloc.oids, List.countP_cons, List.range'_succ]
      simpa [Alloc.oids] using ih (c + 1)
    · cases flag <;>
        simp_all [Alloc.doAllocs, hp, Alloc.oids, List.countP_cons]

/-! ## Literal factory memoization (crabLitFactoryImpl getLit, CfgBuilder.cc:419) -/

namespace LitFac

/-- Type of a source value seen by the literal factory. -/
inductive VTy
| boolT
| intT (w : Nat)
| ptrT
| otherT
deriving DecidableEq

/-- Syntactic form of a source value, as the factory distinguishes them:
a ConstantInt (carrying the getIntConstant value and the bignum flag of its
APInt), a ConstantPointerNull, a ConstantExpr, or any other value (argument or
instruction). -/
inductive VForm
| constInt (n : Int) (big : Bool)
| constNull
| constExprF
| otherV
deriving DecidableEq

/-- A source value: an identity (the Value pointer, which also keys the
variable factory) together with its type and form. -/
structure LVal where
  id : Nat
  ty : VTy
  form : VForm
deriving DecidableEq

/-- Crab literals the factory produces. -/
inductive CLit
| boolVar (x : Var)
| boolCst (b : Bool)
| intVar (x : Var) (w : Nat)
| intCst (k : Int)
| ptrVar (x : Var)
| ptrNull
deriving DecidableEq

/-- Shallow embedding of getBoolLit (CfgBuilder.cc:565): an i1 ConstantInt is a
constant boolean (i1 constants are never bignums); a ConstantExpr yields no
literal; any other value of boolean type is a boolean variable. -/
def getBoolLit (v : LVal) : Option CLit :=
  match v.ty with
  | .boolT =>
    match v.form with
    | .constInt n _ => some (.boolCst (0 < n))
    | .constExprF => none
    | _ => some (.boolVar v.id)
  | _ => none

/-- Shallow embedding of getIntLit (CfgBuilder.cc:593): a ConstantInt of integer
type yields a constant literal unless it is flagged as a bignum (the flag is
only raised with bignums disabled); a ConstantExpr yields no literal; any other
value of integer type is an integer variable. -/
def getIntLit (enableBignums : Bool) (v : LVal) : Option CLit :=
  match v.ty with
  | .intT w =>
    match v.form with
    | .constInt n big =>
        if !enableBignums && big then none else some (.intCst n)
    | .constExprF => none
    | _ => some (.intVar v.id w)
  | _ => none

/-- Shallow embedding of getPtrLit (CfgBuilder.cc:582): a ConstantPointerNull is
the null literal; any other non-ConstantExpr value of pointer type is a pointer
variable. -/
def getPtrLit (v : LVal) : Option CLit :=
  match v.form with
  | .constNull => some .ptrNull
  | _ =>
    match v.ty with
    | .ptrT =>
      match v.form with
      | .constExprF => none
      | _ => some (.ptrVar v.id)
    | _ => none

/-- The literal cache, keyed by source-value identity. -/
abbrev Cache := List (Nat × CLit)

/-- Lookup in the literal cache by value identity. -/
def find (k : Nat) : Cache → Option CLit
| [] => none
| (k2, l) :: rest => if k = k2 then some l else find k rest

/-- Shallow embedding of crabLitFactoryImpl getLit (CfgBuilder.cc:419): the
cache is consulted first; otherwise the value is classified by its type and the
resulting literal, if any, is inserted into the cache. -/
def getLit (enableBignums : Bool) (c : Cache) (v : LVal) : Option CLit × Cache :=
  match find v.id c with
  | some l => (some l, c)
  | none =>
    let classified : Option CLit :=
      match v.ty with
      | .boolT => getBoolLit v
      | .intT _ => getIntLit enableBignums v
      | .ptrT => getPtrLit v
      | .otherT => none
    match classified with
    | some l => (some l, (v.id, l) :: c)
    | none => (none, c)

/-- Cache evolution across a sequence of getLit calls. -/
def run (enableBignums : Bool) (vs : List LVal) (c : Cache) : Cache :=
  vs.foldl (fun acc v => (getLit enableBignums acc v).2) c

/-- Entries of the literal cache are only ever added, never removed or
overwritten: one getLit call preserves every present binding. -/
theorem find_getLit_preserved (e : Bool) (c : Cache) (w : LVal) (k : Nat)
    (l : CLit) (h : find k c = some l) :
    find k (getLit e c w).2 = some l := by
  unfold getLit
  cases hf : find w.id c with
  | some l2 => simpa using h
  | none =>
    cases hc : (match w.ty with
      | .boolT => getBoolLit w
      | .intT _ => getIntLit e w
      | .ptrT => getPtrLit w
      | .otherT => none : Option CLit) with
    | none => simpa using h
    | some l2 =>
      simp only [find]
      have hne : k ≠ w.id := by
        intro heq
        rw [heq, hf] at h
        exact Option.noConfusion h
      simp [hne, h]

/-- Cache bindings survive any sequence of further getLit calls. -/
theorem find_run_preserved (e : Bool) (vs : List LVal) (c : Cache) (k : Nat)
    (l : CLit) (h : find k c = some l) :
    find k (run e vs c) = some l := by
  induction vs generalizing c with
  | nil => exact h
  | cons w rest ih =>
    exact ih _ (find_getLit_preserved e c w k l h)

end LitFac

/-- C7: literal lookup is memoized by source-value identity and referentially
stable: when getLit succeeds on a value, the successful literal is in the cache
afterwards, it is still there after any further sequence of getLit calls during
the same translation (entries are never invalidated), and a second call on the
same value — immediately or after any such sequence — returns the identical
cached literal without changing the cache. -/
theorem getLit_memoized (e : Bool) (c : LitFac.Cache) (v : LitFac.LVal)
    (l : LitFac.CLit) (c1 : LitFac.Cache)
    (h : LitFac.getLit e c v = (some l, c1)) :
    LitFac.find v.id c1 = some l ∧
    LitFac.getLit e c1 v = (some l, c1) ∧
    ∀ vs : List LitFac.LVal,
      LitFac.find v.id (LitFac.run e vs c1) = some l ∧
      LitFac.getLit e (LitFac.run e vs c1) v = (some l, LitFac.run e vs c1) := by
  have hfind : LitFac.find v.id c1 = some l := by
    unfold LitFac.getLit at h
    cases hf : LitFac.find v.id c with
    | some l2 =>
      rw [hf] at h
      obtain ⟨h1, h2⟩ := Prod.mk.injEq .. ▸ h
      subst h2
      simpa [hf] using h1
    | none =>
      rw [hf] at h
      cases hc : (match v.ty with
        | .boolT => LitFac.getBoolLit v
        | .intT _ => LitFac.getIntLit e v
        | .ptrT => LitFac.getPtrLit v
        | .otherT => none : Option LitFac.CLit) with
      | none =>
        rw [hc] at h
        exact absurd (congrArg Prod.fst h) (by simp)
      | some l2 =>
        rw [hc] at h
        obtain ⟨h1, h2⟩ := Prod.mk.injEq .. ▸ h
        have hl : l2 = l := by simpa using h1
        subst hl h2
        simp [LitFac.find]
  have hstable : ∀ c2 : LitFac.Cache, LitFac.find v.id c2 = some l →
      LitFac.getLit e c2 v = (some l, c2) := by
    intro c2 h2
    unfold LitFac.getLit
    rw [h2]
  refine ⟨hfind, hstable c1 hfind, fun vs => ?_⟩
  have hrun := LitFac.find_run_preserved e vs c1 v.id l hfind
  exact ⟨hrun, hstable _ hrun⟩

/-- Witness for C7: the first lookup of a fresh integer-typed value classifies
and caches it, and the second lookup returns the identical literal. -/
theorem getLit_memoized_witness :
    LitFac.getLit true [] ⟨5, .intT 32, .otherV⟩
      = (some (.intVar 5 32), [(5, LitFac.CLit.intVar 5 32)]) ∧
    LitFac.getLit true [(5, LitFac.CLit.intVar 5 32)] ⟨5, .intT 32, .otherV⟩
      = (some (.intVar 5 32), [(5, LitFac.CLit.intVar 5 32)]) := by
  have h1 : LitFac.getLit true [] ⟨5, .intT 32, .otherV⟩
      = (some (.intVar 5 32), [(5, LitFac.CLit.intVar 5 32)]) := rfl
  exact ⟨h1, (getLit_memoized true [] ⟨5, .intT 32, .otherV⟩ _ _ h1).2.1⟩

/-! ## Function-declaration assembly (build_cfg, CfgBuilder.cc:3370-3557) -/

namespace FDecl

/-- Crab type of a scalar function parameter. -/
inductive Ty
| bty
| ity (w : Nat)
| pty
deriving DecidableEq

/-- A tracked or untracked LLVM function argument and its Crab variable. -/
structure Arg where
  v : Var
  ty : Ty
  tracked : Bool
deriving DecidableEq

/-- Statements of the entry block relevant to the declaration assembly: the
three kinds of bridging assignment the renaming can emit, and the statements
already emitted into the entry block by the instruction translator (opaque
here, distinguished by a tag). -/
inductive Stmt
| assignV (lhs rhs : Var)
| boolAssignV (lhs rhs : Var)
| ptrAssignV (lhs rhs : Var)
| bodyStmt (tag : Nat)
deriving DecidableEq

/-- Bridging assignment emitted for a renamed parameter of the given type
(fresh variable receives the original). -/
def bridge (ty : Ty) (fresh orig : Var) : Stmt :=
  match ty with
  | .bty => .boolAssignV fresh orig
  | .ity _ => .assignV fresh orig
  | .pty => .ptrAssignV fresh orig

/-- Accumulator of the parameter loop: collected inputs, current entry block
statements, next fresh variable. -/
structure DeclState where
  inputs : List Var
  entry : List Stmt
  fresh : Nat
deriving DecidableEq

/-- Shallow embedding of one iteration of the input-parameter loop of build_cfg
(CfgBuilder.cc:3423-3449): an untracked argument is skipped; a tracked argument
whose variable equals the synthesized return variable is renamed to a fresh
variable, with an assignment of the original to the fresh copy appended to the
entry block (the source calls entry.assign without moving the insert point to
the front); otherwise the argument's variable joins the inputs unchanged. -/
def addParam (ret : Option Var) (st : DeclState) (a : Arg) : DeclState :=
  if a.tracked then
    match ret with
    | some r =>
      if a.v = r then
        { inputs := st.inputs ++ [st.fresh],
          entry := st.entry ++ [bridge a.ty st.fresh a.v],
          fresh := st.fresh + 1 }
      else { st with inputs := st.inputs ++ [a.v] }
    | none => { st with inputs := st.inputs ++ [a.v] }
  else st

/-- Result of the declaration assembly. -/
structure DeclResult where
  inputs : List Var
  outputs : List Var
  entry : List Stmt
  fatal : Bool
deriving DecidableEq

/-- Shallow embedding of the scalar part of the function-declaration assembly
(CfgBuilder.cc:3395-3556): the synthesized return variable is the sole scalar
output; the parameter loop builds the inputs, renaming collisions with the
return variable; finally the fatal configuration error fires exactly when the
input and output variable sets intersect (the source sorts both vectors and
takes their set intersection before raising CLAM_ERROR). -/
def addFunDecl (fresh : Nat) (ret : Option Var) (args : List Arg)
    (entry : List Stmt) : DeclResult :=
  let outputs : List Var := match ret with | some r => [r] | none => []
  let st := args.foldl (addParam ret) ⟨[], entry, fresh⟩
  { inputs := st.inputs, outputs := outputs, entry := st.entry,
    fatal := st.inputs.any (fun v => outputs.contains v) }

end FDecl

/-- C5 counterexample: for a function whose sole tracked parameter (variable 5)
is also its synthesized return variable and whose entry block already holds a
statement, the bridging assignment is appended after that statement, not
inserted before any other statement as the claim requires. -/
theorem funcdecl_bridge_not_first :
    (FDecl.addFunDecl 100 (some 5) [⟨5, .ity 32, true⟩] [.bodyStmt 0]).entry
      = [FDecl.Stmt.bodyStmt 0, FDecl.Stmt.assignV 100 5] ∧
    (FDecl.addFunDecl 100 (some 5) [⟨5, .ity 32, true⟩] [.bodyStmt 0]).entry.head?
      ≠ some (FDecl.Stmt.assignV 100 5) := by
  exact ⟨rfl, by decide⟩

/-- C5 amended: when a tracked parameter's variable collides with the
synthesized return variable, the assembler renames the parameter to a fresh
variable and appends a bridging assignment (fresh receives the original) to the
entry block, after any statements already emitted there; the fatal
input/output-intersection error is raised if and only if, after all renaming,
the declaration's input and output variable sets still intersect; in
particular, a function whose sole tracked parameter is also its returned value
never triggers the fatal check. -/
theorem funcdecl_rename_and_intersection (fresh : Nat) (ret : Option Var)
    (args : List FDecl.Arg) (entry : List FDecl.Stmt) :
    ((FDecl.addFunDecl fresh ret args entry).fatal = true ↔
      ∃ v ∈ (FDecl.addFunDecl fresh ret args entry).inputs,
        v ∈ (FDecl.addFunDecl fresh ret args entry).outputs) ∧
    (∀ a r, args = [a] → ret = some r → a.tracked = true → a.v = r →
      r < fresh →
      (FDecl.addFunDecl fresh ret args entry).fatal = false ∧
      (FDecl.addFunDecl fresh ret args entry).inputs = [fresh] ∧
      (FDecl.addFunDecl fresh ret args entry).outputs = [r] ∧
      (FDecl.addFunDecl fresh ret args entry).entry
        = entry ++ [FDecl.bridge a.ty fresh a.v]) := by
  constructor
  · simp [FDecl.addFunDecl, List.any_eq_true]
  · intro a r hargs hret htr hcol hlt
    subst hargs hret
    have hne : ¬ (fresh = r) := by
      intro heq
      rw [heq] at hlt
      exact lt_irrefl r hlt
    simp [FDecl.addFunDecl, FDecl.addParam, htr, hcol, hne]

/-- Witness for C5 amended: the sole-parameter-returned function with a
non-empty entry block produces no fatal error, the renamed input and the
appended bridge. -/
theorem funcdecl_rename_and_intersection_witness :
    (FDecl.addFunDecl 100 (some 5) [⟨5, .ity 32, true⟩] [.bodyStmt 0]).fatal
      = false ∧
    (FDecl.addFunDecl 100 (some 5) [⟨5, .ity 32, true⟩] [.bodyStmt 0]).inputs
      = [100] := by
  have h := (funcdecl_rename_and_intersection 100 (some 5) [⟨5, .ity 32, true⟩]
    [.bodyStmt 0]).2 ⟨5, .ity 32, true⟩ 5 rfl rfl rfl rfl (by norm_num)
  exact ⟨h.1, h.2.1⟩

/-! ## One array-init per region (doMemIntrinsic, CfgBuilder.cc:1738;
doInitializer, CfgBuilder.cc:1812; build_cfg, CfgBuilder.cc:3298) -/

namespace ArrInit

/-- Classification of a literal reference involved in a memset lowering. -/
inductive VKind
| intV
| boolV
| ptrV
deriving DecidableEq

/-- Inputs that decide the memset branch of doMemIntrinsic: the aggressive
array-initialization flag, whether the stored value has integer type, the
region of the destination (none when unknown), and the classifications of the
length and value literals (none when getLit fails). -/
structure Memset where
  aggressive : Bool
  valIsIntegerTy : Bool
  region : Option Nat
  lenRef : Option VKind
  valRef : Option VKind
deriving DecidableEq

/-- Region-addressed statements the initialization lowerings emit. -/
inductive Stmt
| arrayInit (r : Nat)
| havocArr (r : Nat)
| scalarAssign (r : Nat)
deriving DecidableEq

/-- Embedding of the guard m_init_regions.insert(r).second: the array-init is
emitted only when the insertion actually adds the region to the set. -/
def guardedInit (r : Nat) (s : List Nat) : List Stmt × List Nat :=
  if r ∈ s then ([], s) else ([.arrayInit r], r :: s)

/-- Shallow embedding of the MemSetInst branch of doMemIntrinsic
(CfgBuilder.cc:1759-1805), at tracked precision ARR: the array-init statement
is emitted only when inserting the region into the shared initialized-region
set actually adds it (m_init_regions.insert(r).second); a pointer-valued fill
havocs the array instead. -/
def doMemSet (ev : Memset) (s : List Nat) : List Stmt × List Nat :=
  if ev.aggressive && ev.valIsIntegerTy then
    match ev.region with
    | none => ([], s)
    | some r =>
      match ev.lenRef, ev.valRef with
      | none, _ => ([], s)
      | some _, none => ([], s)
      | some lk, some vk =>
        match lk with
        | .intV =>
          match vk with
          | .intV => guardedInit r s
          | .boolV => guardedInit r s
          | .ptrV => ([.havocArr r], s)
        | _ => ([], s)
  else ([], s)

/-- Shape of the initialized type in a verifier initializer call. -/
inductive ITy
| scalarIntBool
| arrNonEmpty
| arrEmpty
| otherTy
deriving DecidableEq

/-- Inputs that decide doInitializer: the region of the initialized global
(none when unknown), whether the region is a promoted global singleton, the
shape of the initialized type, and whether the optional value argument
classified successfully (false models a bignum constant without bignum
support). -/
structure InitCall where
  region : Option Nat
  singleton : Bool
  tyKind : ITy
  argOk : Bool
deriving DecidableEq

/-- Shallow embedding of doInitializer (CfgBuilder.cc:1812-1885): a singleton
region is promoted to a scalar assignment; otherwise an array-init over the
region is emitted, guarded by insertion into the shared initialized-region
set; zero-length arrays and untranslatable value arguments are skipped. -/
def doInitializer (ev : InitCall) (s : List Nat) : List Stmt × List Nat :=
  match ev.region with
  | none => ([], s)
  | some r =>
    if !ev.argOk then ([], s)
    else if ev.singleton then ([.scalarAssign r], s)
    else
      match ev.tyKind with
      | .scalarIntBool => guardedInit r s
      | .arrNonEmpty => guardedInit r s
      | .arrEmpty => ([], s)
      | .otherTy => ([], s)

/-- Dispatch of one initialization event to its lowering. -/
def step (e : Memset ⊕ InitCall) (s : List Nat) : List Stmt × List Nat :=
  match e with
  | .inl m => doMemSet m s
  | .inr i => doInitializer i s

/-- Initialization events encountered while translating one function; the
initialized-region set is created once per function in build_cfg
(CfgBuilder.cc:3298) and shared by every block's visitor. -/
def runEvents : List (Memset ⊕ InitCall) → List Nat → List Stmt × List Nat
| [], s => ([], s)
| e :: rest, s =>
  let p := step e s
  let q := runEvents rest p.2
  (p.1 ++ q.1, q.2)

/-- Number of array-init statements addressing region r. -/
def countInit (r : Nat) (l : List Stmt) : Nat :=
  l.countP (fun s => s = Stmt.arrayInit r)

/-- Properties one lowering step must satisfy for the once-per-region
invariant: an already-initialized region receives no array-init and stays in
the set, at most one array-init is emitted, and an emitted array-init puts the
region into the set. -/
def StepOK (p : List Stmt × List Nat) (s : List Nat) (r : Nat) : Prop :=
  (r ∈ s → countInit r p.1 = 0) ∧
  (r ∈ s → r ∈ p.2) ∧
  countInit r p.1 ≤ 1 ∧
  (1 ≤ countInit r p.1 → r ∈ p.2)

/-- Steps that emit no array-init and keep the set satisfy StepOK. -/
theorem stepOK_of_no_init (l : List Stmt) (s : List Nat) (r : Nat)
    (h : countInit r l = 0) : StepOK (l, s) s r := by
  refine ⟨fun _ => h, fun hm => hm, ?_, fun h1 => ?_⟩
  · show countInit r l ≤ 1
    omega
  · exact absurd (h ▸ (h1 : 1 ≤ countInit r l)) (by omega)

/-- Counting array-init statements over region r in a singleton list. -/
theorem countInit_single (r r2 : Nat) :
    countInit r [Stmt.arrayInit r2] = if r2 = r then 1 else 0 := by
  by_cases hr : r2 = r <;> simp [countInit, hr]

/-- The guarded insertion satisfies StepOK. -/
theorem stepOK_guardedInit (r2 : Nat) (s : List Nat) (r : Nat) :
    StepOK (guardedInit r2 s) s r := by
  unfold guardedInit
  by_cases h : r2 ∈ s
  · rw [if_pos h]
    exact stepOK_of_no_init [] s r rfl
  · rw [if_neg h]
    by_cases hr : r2 = r
    · subst hr
      refine ⟨fun hm => absurd hm h, fun hm => absurd hm h, ?_, fun _ => ?_⟩
      · show countInit r2 [Stmt.arrayInit r2] ≤ 1
        rw [countInit_single]
        simp
      · show r2 ∈ r2 :: s
        exact List.mem_cons_self r2 s
    · refine ⟨fun _ => ?_, fun hm => ?_, ?_, fun h1 => ?_⟩
      · show countInit r [Stmt.arrayInit r2] = 0
        rw [countInit_single, if_neg hr]
      · show r ∈ r2 :: s
        exact List.mem_cons_of_mem _ hm
      · show countInit r [Stmt.arrayInit r2] ≤ 1
        rw [countInit_single, if_neg hr]
        omega
      · have h2 : (1 : Nat) ≤ countInit r [Stmt.arrayInit r2] := h1
        rw [countInit_single, if_neg hr] at h2
        exact absurd h2 (by omega)

/-- Every memset lowering step satisfies StepOK. -/
theorem doMemSet_step (ev : Memset) (s : List Nat) (r : Nat) :
    StepOK (doMemSet ev s) s r := by
  rcases ev with ⟨ag, vt, reg, lr, vr⟩
  cases ag <;> cases vt <;>
    first
    | exact stepOK_of_no_init [] s r rfl
    | skip
  rcases reg with _ | r2
  · exact stepOK_of_no_init [] s r rfl
  rcases lr with _ | lk
  · exact stepOK_of_no_init [] s r rfl
  rcases vr with _ | vk
  · exact stepOK_of_no_init [] s r rfl
  rcases lk with _ | _ | _ <;> rcases vk with _ | _ | _ <;>
    first
    | exact stepOK_guardedInit r2 s r
    | exact stepOK_of_no_init _ s r (by simp [countInit])

/-- Every initializer lowering step satisfies StepOK. -/
theorem doInitializer_step (ev : InitCall) (s : List Nat) (r : Nat) :
    StepOK (doInitializer ev s) s r := by
  rcases ev with ⟨reg, sing, ty, ok⟩
  rcases reg with _ | r2
  · exact stepOK_of_no_init [] s r rfl
  unfold doInitializer
  cases ok
  · exact stepOK_of_no_init [] s r rfl
  cases sing
  · simp only [Bool.not_true, Bool.false_eq_true, if_false, if_true]
    rcases ty with _ | _ | _ | _ <;>
      first
      | exact stepOK_guardedInit r2 s r
      | exact stepOK_of_no_init _ s r (by simp [countInit])
  · exact stepOK_of_no_init _ s r (by simp [countInit])

/-- Every event step satisfies StepOK. -/
theorem step_ok (e : Memset ⊕ InitCall) (s : List Nat) (r : Nat) :
    StepOK (step e s) s r := by
  cases e with
  | inl m => exact doMemSet_step m s r
  | inr i => exact doInitializer_step i s r

/-- Counting array-init statements distributes over concatenation. -/
theorem countInit_append (r : Nat) (a b : List Stmt) :
    countInit r (a ++ b) = countInit r a + countInit r b :=
  List.countP_append _ _ _

/-- Running a sequence of initialization events starting from set s emits no
array-init over regions of s, and never more than one array-init over any
region. -/
theorem runEvents_once (evs : List (Memset ⊕ InitCall)) (s : List Nat)
    (r : Nat) :
    (r ∈ s → countInit r (runEvents evs s).1 = 0) ∧
    countInit r (runEvents evs s).1 ≤ 1 ∧
    (r ∈ s → r ∈ (runEvents evs s).2) := by
  induction evs generalizing s with
  | nil => exact ⟨fun _ => rfl, by simp [runEvents, countInit], fun hm => hm⟩
  | cons e rest ih =>
    obtain ⟨h0, hmem, hle, hput⟩ := step_ok e s r
    obtain ⟨ih0, ihle, ihmem⟩ := ih (step e s).2
    have hfst : (runEvents (e :: rest) s).1
        = (step e s).1 ++ (runEvents rest (step e s).2).1 := rfl
    have hsnd : (runEvents (e :: rest) s).2
        = (runEvents rest (step e s).2).2 := rfl
    refine ⟨fun hm => ?_, ?_, fun hm => ?_⟩
    · rw [hfst, countInit_append, h0 hm, ih0 (hmem hm)]
    · rw [hfst, countInit_append]
      rcases Nat.eq_zero_or_pos (countInit r (step e s).1) with hz | hp
      · omega
      · have hz2 := ih0 (hput hp)
        omega
    · rw [hsnd]
      exact ihmem (hmem hm)

end ArrInit

/-- C9: during one function's translation, at most one array-init statement is
emitted per memory region: a memset or initializer targeting a region already
recorded in the shared initialized-region set emits no array-init, and any run
of initialization events starting from the empty set emits at most one
array-init per region. -/
theorem array_init_once_per_region
    (evs : List (ArrInit.Memset ⊕ ArrInit.InitCall)) (r : Nat)
    (m : ArrInit.Memset) (i : ArrInit.InitCall) (s : List Nat) (hm : r ∈ s) :
    ArrInit.countInit r (ArrInit.runEvents evs []).1 ≤ 1 ∧
    ArrInit.countInit r (ArrInit.doMemSet m s).1 = 0 ∧
    ArrInit.countInit r (ArrInit.doInitializer i s).1 = 0 := by
  refine ⟨(ArrInit.runEvents_once evs [] r).2.1, ?_, ?_⟩
  · exact (ArrInit.doMemSet_step m s r).1 hm
  · exact (ArrInit.doInitializer_step i s r).1 hm

/-- Witness for C9: two identical aggressive memsets over region 7 emit exactly
one array-init; a further memset from a set already containing 7 emits none. -/
theorem array_init_once_per_region_witness :
    ArrInit.countInit 7 (ArrInit.runEvents
      [Sum.inl ⟨true, true, some 7, some .intV, some .intV⟩,
       Sum.inl ⟨true, true, some 7, some .intV, some .intV⟩] []).1 ≤ 1 ∧
    ArrInit.countInit 7
      (ArrInit.doMemSet ⟨true, true, some 7, some .intV, some .intV⟩ [7]).1
      = 0 := by
  have h := array_init_once_per_region
    [Sum.inl ⟨true, true, some 7, some .intV, some .intV⟩,
     Sum.inl ⟨true, true, some 7, some .intV, some .intV⟩] 7
    ⟨true, true, some 7, some .intV, some .intV⟩
    ⟨some 7, false, .scalarIntBool, true⟩ [7] (by simp)
  exact ⟨h.1, h.2.1⟩

/-! ## GEP offset computation (visitGetElementPtrInst, CfgBuilder.cc:2360) -/

namespace Gep

/-- Layout of a sequentially-indexed element type, as the external DataLayout
provides it: its size in bits and its ABI alignment in bytes (positive). -/
structure ElemTy where
  sizeInBits : Nat
  abiAlign : Nat
deriving DecidableEq

/-- Store size of a type: the bytes needed to hold it, DataLayout
getTypeStoreSize, the ceiling of sizeInBits over 8.  This is what storageSize
(CfgBuilder.cc:819) returns and what the symbolic GEP path multiplies by. -/
def storeSize (t : ElemTy) : Nat := (t.sizeInBits + 7) / 8

/-- Alloc size of a type: the store size rounded up to the ABI alignment,
DataLayout getTypeAllocSize; LLVM address arithmetic uses it as the stride of
sequential (array-like) indexing. -/
def allocSize (t : ElemTy) : Nat :=
  ((storeSize t + t.abiAlign - 1) / t.abiAlign) * t.abiAlign

/-- One GEP index as the gep_type iterator presents it: a structure-field index
with its statically known byte offset (StructLayout getElementOffset, used
identically by both paths), or a sequential index into elements of the given
layout, either a ConstantInt or a symbolic variable. -/
inductive GepIdx
| structField (offset : Nat)
| seqConst (k : Int) (elem : ElemTy)
| seqVar (x : Var) (elem : ElemTy)
deriving DecidableEq

/-- Exact total constant offset underlying LLVM GEPOperator
accumulateConstantOffset, which visitGetElementPtrInst invokes at
CfgBuilder.cc:2391 (LLVM library code, outside this repository, modelled from
its documented semantics): it succeeds exactly when every index is a constant;
a structure-field index contributes its field byte offset, and a sequential
index contributes the index value times the element's ALLOC size
(DataLayout getTypeAllocSize). -/
def accumulateConstantOffsetExact : List GepIdx → Option Int
| [] => some 0
| .structField o :: rest =>
    (accumulateConstantOffsetExact rest).map (fun acc => (o : Int) + acc)
| .seqConst k e :: rest =>
    (accumulateConstantOffsetExact rest).map
      (fun acc => k * (allocSize e : Int) + acc)
| .seqVar _ _ :: _ => none

/-- Signed value of an integer reduced modulo 2 to the w: accumulateConstantOffset
keeps the offset in an APInt of the pointer bitwidth, and toZNumber
(CfgBuilder.cc:115) reads that bit pattern back as a signed number.  Reducing
the exact sum once at the end equals the stepwise wrapping of the APInt
arithmetic because reduction modulo 2 to the w is a ring homomorphism. -/
def signedOfWidth (w : Nat) (n : Int) : Int :=
  let m := n % (2 ^ w : Int)
  if m < 2 ^ (w - 1) then m else m - 2 ^ w

/-- Byte offset carried by the single pointer-assign statement of the
constant fast path (CfgBuilder.cc:2389-2403). -/
def fastOffset (w : Nat) (idxs : List GepIdx) : Option Int :=
  (accumulateConstantOffsetExact idxs).map (signedOfWidth w)

/-- Offset expression carried by one pointer-assign of the symbolic path. -/
inductive OffExp
| cst (k : Int)
| mulVar (x : Var) (sz : Nat)
deriving DecidableEq

/-- A pointer-assign statement lhs := rhs + off. -/
structure PtrAssign where
  lhs : Var
  rhs : Var
  off : OffExp
deriving DecidableEq

/-- Shallow embedding of the symbolic-offset loop of visitGetElementPtrInst
(CfgBuilder.cc:2405-2447): a structure-field index adds the static field byte
offset; a sequential ConstantInt index equal to zero is skipped; any other
sequential index multiplies the index by the element's STORE size (storageSize);
each pointer-assign consumes the previous result through the already-assigned
flag (the first reads the base pointer, later ones the destination). -/
def symbolicGep (lhs ptr : Var) : List GepIdx → Bool → List PtrAssign
| [], _ => []
| .structField o :: rest, assigned =>
    ⟨lhs, if assigned then lhs else ptr, .cst o⟩ :: symbolicGep lhs ptr rest true
| .seqConst k e :: rest, assigned =>
    if k = 0 then symbolicGep lhs ptr rest assigned
    else ⟨lhs, if assigned then lhs else ptr, .cst (k * (storeSize e : Int))⟩ ::
      symbolicGep lhs ptr rest true
| .seqVar x e :: rest, assigned =>
    ⟨lhs, if assigned then lhs else ptr, .mulVar x (storeSize e)⟩ ::
      symbolicGep lhs ptr rest true

/-- Value of an offset expression in an environment for the index variables. -/
def evalOff (ρ : Var → Int) : OffExp → Int
| .cst k => k
| .mulVar x sz => ρ x * sz

/-- Total byte offset the symbolic chain accumulates: each pointer-assign adds
its offset to the previous result, so the chain computes the sum. -/
def chainOffset (ρ : Var → Int) (l : List PtrAssign) : Int :=
  (l.map (fun a => evalOff ρ a.off)).sum

/-- Reducing a value already in the signed range of width w is the identity. -/
theorem signedOfWidth_of_range (w : Nat) (n : Int) (hw : 1 ≤ w)
    (h1 : -(2 ^ (w - 1) : Int) ≤ n) (h2 : n < 2 ^ (w - 1)) :
    signedOfWidth w n = n := by
  have hsplit : (2 : Int) ^ w = 2 * 2 ^ (w - 1) := by
    rw [← pow_succ']
    congr 1
    omega
  have hpos : (0 : Int) < 2 ^ (w - 1) := pow_pos (by norm_num) _
  unfold signedOfWidth
  by_cases hn : 0 ≤ n
  · have hmod : n % (2 ^ w : Int) = n := Int.emod_eq_of_lt hn (by omega)
    simp only [hmod]
    rw [if_pos h2]
  · have hmod : n % (2 ^ w : Int) = n + 2 ^ w := by
      have heq : (n + 2 ^ w) % (2 ^ w : Int) = n % (2 ^ w : Int) := by
        have h3 := Int.add_mul_emod_self_left (a := n) (b := (2 ^ w : Int)) (c := 1)
        rw [mul_one] at h3
        exact h3
      rw [← heq]
      exact Int.emod_eq_of_lt (by omega) (by omega)
    simp only [hmod]
    rw [if_neg (by omega)]
    omega

/-- Unfolding equation of the accumulator at a structure-field index. -/
theorem accum_cons_struct (o : Nat) (rest : List GepIdx) :
    accumulateConstantOffsetExact (.structField o :: rest)
      = (accumulateConstantOffsetExact rest).map (fun acc => (o : Int) + acc) :=
  rfl

/-- Unfolding equation of the accumulator at a sequential constant index. -/
theorem accum_cons_seq (k : Int) (e : ElemTy) (rest : List GepIdx) :
    accumulateConstantOffsetExact (.seqConst k e :: rest)
      = (accumulateConstantOffsetExact rest).map
          (fun acc => k * (allocSize e : Int) + acc) :=
  rfl

/-- When every index is constant and every sequential element type has equal
store and alloc sizes, the symbolic chain sums to the exact accumulated
offset, for any index environment and any initial already-assigned flag. -/
theorem chainOffset_of_const (idxs : List GepIdx) (t : Int)
    (hacc : accumulateConstantOffsetExact idxs = some t)
    (hsz : ∀ k e, GepIdx.seqConst k e ∈ idxs → storeSize e = allocSize e)
    (ρ : Var → Int) (lhs ptr : Var) (b : Bool) :
    chainOffset ρ (symbolicGep lhs ptr idxs b) = t := by
  induction idxs generalizing t b with
  | nil =>
    cases hacc
    rfl
  | cons i rest ih =>
    cases i with
    | structField o =>
      rw [accum_cons_struct] at hacc
      cases hrest : accumulateConstantOffsetExact rest with
      | none =>
        rw [hrest] at hacc
        exact absurd hacc (by simp)
      | some t2 =>
        rw [hrest] at hacc
        obtain rfl : (o : Int) + t2 = t := by simpa using hacc
        have hsz2 : ∀ k e, GepIdx.seqConst k e ∈ rest →
            storeSize e = allocSize e :=
          fun k e hm => hsz k e (List.mem_cons_of_mem _ hm)
        have hih := ih t2 hrest hsz2 true
        simp only [symbolicGep, chainOffset, List.map_cons, List.sum_cons,
          evalOff] at hih ⊢
        rw [hih]
    | seqConst k e =>
      rw [accum_cons_seq] at hacc
      cases hrest : accumulateConstantOffsetExact rest with
      | none =>
        rw [hrest] at hacc
        exact absurd hacc (by simp)
      | some t2 =>
        rw [hrest] at hacc
        obtain rfl : k * (allocSize e : Int) + t2 = t := by simpa using hacc
        have hsz2 : ∀ k e, GepIdx.seqConst k e ∈ rest →
            storeSize e = allocSize e :=
          fun k e hm => hsz k e (List.mem_cons_of_mem _ hm)
        have hse : storeSize e = allocSize e := hsz k e (List.mem_cons_self _ _)
        by_cases hk : k = 0
        · subst hk
          have hih := ih t2 hrest hsz2 b
          simp only [chainOffset] at hih ⊢
          rw [show symbolicGep lhs ptr (GepIdx.seqConst 0 e :: rest) b
              = symbolicGep lhs ptr rest b from by simp [symbolicGep]]
          rw [hih]
          ring
        · simp only [symbolicGep, if_neg hk]
          have hih := ih t2 hrest hsz2 true
          simp only [chainOffset, List.map_cons, List.sum_cons, evalOff] at hih ⊢
          rw [hih, hse]
    | seqVar x e =>
      exact absurd hacc (by simp [accumulateConstantOffsetExact])

end Gep

/-- C2 counterexample: a getelementptr with the single constant sequential
index 1 over an element type of 36 bits aligned to 8 bytes (an i36 array
element: store size 5, alloc size 8) at pointer width 64.  The constant fast
path emits the byte offset 8 while the symbolic per-index accumulation path
computes 5, so the two paths disagree on the same access. -/
theorem gep_paths_disagree_on_padded_elem :
    Gep.fastOffset 64 [.seqConst 1 ⟨36, 8⟩] = some 8 ∧
    Gep.chainOffset (fun _ => 0) (Gep.symbolicGep 0 1 [.seqConst 1 ⟨36, 8⟩] false)
      = 5 ∧
    (8 : Int) ≠ 5 := by
  refine ⟨?_, by decide, by decide⟩
  show some (Gep.signedOfWidth 64 ((1 : Int) * 8 + 0)) = some 8
  rw [Gep.signedOfWidth_of_range 64 (1 * 8 + 0) (by norm_num) (by norm_num)
    (by norm_num)]
  norm_num

/-- C2 amended: the byte offset carried by the constant fast path equals the
byte offset the symbolic per-index accumulation path computes for the same
access, provided every sequential index multiplies an element type whose store
size equals its alloc size and the total offset lies within the signed range
of the pointer width; for element types with padding (store size below alloc
size, such as i36) the two paths disagree. -/
theorem gep_fast_path_matches_symbolic (w : Nat) (idxs : List Gep.GepIdx)
    (t : Int) (hw : 1 ≤ w)
    (hacc : Gep.accumulateConstantOffsetExact idxs = some t)
    (hsz : ∀ k e, Gep.GepIdx.seqConst k e ∈ idxs →
      Gep.storeSize e = Gep.allocSize e)
    (h1 : -(2 ^ (w - 1) : Int) ≤ t) (h2 : t < 2 ^ (w - 1)) :
    ∀ (ρ : Var → Int) (lhs ptr : Var) (b : Bool),
      Gep.fastOffset w idxs
        = some (Gep.chainOffset ρ (Gep.symbolicGep lhs ptr idxs b)) := by
  intro ρ lhs ptr b
  rw [Gep.chainOffset_of_const idxs t hacc hsz ρ lhs ptr b]
  unfold Gep.fastOffset
  rw [hacc]
  show some (Gep.signedOfWidth w t) = some t
  rw [Gep.signedOfWidth_of_range w t hw h1 h2]

/-- Witness for C2 amended: a two-level structure-of-arrays access, a struct
field at offset 8 followed by a sequential i32 index 3 (store size equals
alloc size equals 4), agrees across both paths: offset 20. -/
theorem gep_fast_path_matches_symbolic_witness :
    Gep.fastOffset 64 [.structField 8, .seqConst 3 ⟨32, 4⟩]
      = some (Gep.chainOffset (fun _ => 0)
          (Gep.symbolicGep 0 1 [.structField 8, .seqConst 3 ⟨32, 4⟩] false)) := by
  refine gep_fast_path_matches_symbolic 64 [.structField 8, .seqConst 3 ⟨32, 4⟩]
    20 (by norm_num) (by decide) ?_ (by decide) (by decide)
    (fun _ => 0) 0 1 false
  intro k e hm
  rcases List.mem_cons.mp hm with h | h
  · exact absurd h (by simp)
  · rcases List.mem_singleton.mp h with h2
    injection h2 with hk he
    subst he
    decide

/-! ## PHI resolution on an incoming edge (CrabPhiVisitor visitBasicBlock,
CfgBuilder.cc:1233-1329) -/

namespace Phi

/-- Incoming operand of a phi node for one (predecessor, destination) edge, as
the literal factory classifies it: a phi node of the same destination block
(defining variable x), any other value classified as a variable, a constant
literal, or a value on which getLit fails (for example a bignum with bignums
disabled).  The boolean, integer and pointer branches of the source emit the
same shape of assignment in their respective sorts, so one value domain stands
for all three. -/
inductive PhiOp
| samePhi (x : Var)
| outVar (x : Var)
| intCst (k : Int)
| untranslatable
deriving DecidableEq

/-- One phi node of the destination block: its target variable, whether it is
tracked (isTracked, CfgBuilder.cc:161), and its incoming operand for the
edge being translated. -/
structure PhiNode where
  target : Var
  tracked : Bool
  op : PhiOp
deriving DecidableEq

/-- Statements emitted on the edge. -/
inductive PStmt
| assignVar (lhs rhs : Var)
| assignCst (lhs : Var) (k : Int)
| havocStmt (lhs : Var)
deriving DecidableEq

/-- Tracked flag of the phi node of block B defining variable x (an incoming
value that is a phi of the destination block is tracked exactly when that phi
is; false when no phi of B defines x). -/
def trackedOf (B : List PhiNode) (x : Var) : Bool :=
  match B.find? (fun p => p.target == x) with
  | some p => p.tracked
  | none => false

/-- Lookup in the old-value map, keyed by the identity of the incoming value
(a phi of the destination block is identified by the variable it defines). -/
def lookupOld (m : List (Var × Var)) (x : Var) : Option Var :=
  match m with
  | [] => none
  | (k, t) :: rest => if x = k then some t else lookupOld rest x

/-- First pass of CrabPhiVisitor visitBasicBlock (CfgBuilder.cc:1244-1281):
walking the phi nodes in order, an incoming value that is a tracked phi of the
same block and not yet in the old-value map has its current value snapshotted
into a fresh temporary (allocated from the counter) before any destination phi
is assigned; the pair is recorded in the map.  Returns the snapshot
statements, the final map and the final counter. -/
def pass1 (B : List PhiNode) : List PhiNode → Nat → List (Var × Var) →
    List PStmt × List (Var × Var) × Nat
| [], c, m => ([], m, c)
| p :: ps, c, m =>
  match p.op with
  | .samePhi x =>
    if trackedOf B x then
      if (lookupOld m x).isSome then pass1 B ps c m
      else
        let r := pass1 B ps (c + 1) ((x, c) :: m)
        (PStmt.assignVar c x :: r.1, r.2)
    else pass1 B ps c m
  | .outVar _ => pass1 B ps c m
  | .intCst _ => pass1 B ps c m
  | .untranslatable => pass1 B ps c m

/-- Statement the second pass emits for one tracked phi (CfgBuilder.cc:1284-
1328): the old-value map is consulted first (it can only hit for a same-block
phi operand); otherwise the translated incoming literal is assigned directly,
and an unclassifiable literal havocs the destination. -/
def pass2stmt (m : List (Var × Var)) (p : PhiNode) : PStmt :=
  match p.op with
  | .samePhi x =>
    match lookupOld m x with
    | some tmp => .assignVar p.target tmp
    | none => .assignVar p.target x
  | .outVar x => .assignVar p.target x
  | .intCst k => .assignCst p.target k
  | .untranslatable => .havocStmt p.target

/-- Second pass: one assignment per tracked phi, in block order. -/
def pass2 (B : List PhiNode) (m : List (Var × Var)) : List PStmt :=
  B.filterMap fun p => if p.tracked then some (pass2stmt m p) else none

/-- All statements emitted on the edge: the snapshots followed by the
per-phi assignments, with fresh temporaries allocated from n0. -/
def emitPhiEdge (B : List PhiNode) (n0 : Nat) : List PStmt :=
  (pass1 B B n0 []).1 ++ pass2 B (pass1 B B n0 []).2.1

/-- Pointwise state update. -/
def upd (σ : Var → Int) (x : Var) (v : Int) : Var → Int :=
  fun y => if y = x then v else σ y

/-- Execution of one statement; havoc receives an arbitrary value through the
oracle. -/
def stepStmt (oracle : Var → Int) (σ : Var → Int) : PStmt → (Var → Int)
| .assignVar l r => upd σ l (σ r)
| .assignCst l k => upd σ l k
| .havocStmt l => upd σ l (oracle l)

/-- Sequential execution of a statement list. -/
def execStmts (oracle : Var → Int) (σ : Var → Int) (l : List PStmt) :
    Var → Int :=
  l.foldl (stepStmt oracle) σ

/-- Destination variable of a statement. -/
def stmtLhs : PStmt → Var
| .assignVar l _ => l
| .assignCst l _ => l
| .havocStmt l => l

/-- Variables a statement reads. -/
def stmtReads : PStmt → List Var
| .assignVar _ r => [r]
| .assignCst _ _ => []
| .havocStmt _ => []

/-- Value a statement assigns, evaluated in a given state. -/
def evalRhs (oracle : Var → Int) (σ : Var → Int) : PStmt → Int
| .assignVar _ r => σ r
| .assignCst _ k => k
| .havocStmt l => oracle l

/-- Value a phi must receive under simultaneous-assignment semantics: the
value its incoming operand had in the predecessor's outgoing state σ (an
unclassifiable operand is havoced, that is, receives an arbitrary oracle
value). -/
def oldVal (oracle : Var → Int) (σ : Var → Int) (p : PhiNode) : Int :=
  match p.op with
  | .samePhi x => σ x
  | .outVar x => σ x
  | .intCst k => k
  | .untranslatable => oracle p.target

/-- Variables not written by any statement keep their value. -/
theorem execStmts_not_written (oracle : Var → Int) (l : List PStmt) :
    ∀ (σ : Var → Int) (x : Var), x ∉ l.map stmtLhs →
      execStmts oracle σ l x = σ x := by
  induction l with
  | nil => intro σ x _; rfl
  | cons s t ih =>
    intro σ x hx
    simp only [List.map_cons, List.mem_cons] at hx
    push_neg at hx
    have hstep : stepStmt oracle σ s x = σ x := by
      cases s <;> simp [stepStmt, upd, hx.1, stmtLhs] <;>
        exact fun h => absurd h (by simpa [stmtLhs] using hx.1)
    calc execStmts oracle σ (s :: t) x
        = execStmts oracle (stepStmt oracle σ s) t x := rfl
      _ = stepStmt oracle σ s x := ih _ x hx.2
      _ = σ x := hstep

/-- The assigned value only depends on the variables the statement reads. -/
theorem evalRhs_congr (oracle : Var → Int) (σ σ2 : Var → Int) (s : PStmt)
    (h : ∀ r ∈ stmtReads s, σ r = σ2 r) :
    evalRhs oracle σ s = evalRhs oracle σ2 s := by
  cases s with
  | assignVar l r => exact h r (by simp [stmtReads])
  | assignCst l k => rfl
  | havocStmt l => rfl

/-- Parallel-assignment lemma: a statement list whose destinations are
pairwise distinct and never read by any statement of the list executes like a
simultaneous assignment: each destination ends with its right-hand side
evaluated in the initial state. -/
theorem execStmts_parallel (oracle : Var → Int) (l : List PStmt) :
    ∀ (σ : Var → Int), (l.map stmtLhs).Nodup →
      (∀ s ∈ l, ∀ r ∈ stmtReads s, r ∉ l.map stmtLhs) →
      ∀ s ∈ l, execStmts oracle σ l (stmtLhs s) = evalRhs oracle σ s := by
  induction l with
  | nil => intro σ _ _ s hs; exact absurd hs (List.not_mem_nil s)
  | cons s0 t ih =>
    intro σ hnodup hsep s hs
    have hnodup2 : (t.map stmtLhs).Nodup := (List.nodup_cons.mp hnodup).2
    have hhead : stmtLhs s0 ∉ t.map stmtLhs := (List.nodup_cons.mp hnodup).1
    have hsep2 : ∀ s2 ∈ t, ∀ r ∈ stmtReads s2, r ∉ t.map stmtLhs := by
      intro s2 hs2 r hr
      have := hsep s2 (List.mem_cons_of_mem _ hs2) r hr
      intro hmem
      exact this (by simp [hmem])
    rcases List.mem_cons.mp hs with rfl | hs2
    · have hrun : execStmts oracle σ (s :: t) (stmtLhs s)
          = stepStmt oracle σ s (stmtLhs s) := by
        calc execStmts oracle σ (s :: t) (stmtLhs s)
            = execStmts oracle (stepStmt oracle σ s) t (stmtLhs s) := rfl
          _ = stepStmt oracle σ s (stmtLhs s) :=
            execStmts_not_written oracle t _ _ hhead
      rw [hrun]
      cases s <;> simp [stepStmt, upd, stmtLhs, evalRhs]
    · have hstep : ∀ r ∈ stmtReads s, σ r = stepStmt oracle σ s0 r := by
        intro r hr
        have hnot := hsep s (List.mem_cons_of_mem _ hs2) r hr
        have hne : r ≠ stmtLhs s0 := by
          intro heq
          exact hnot (by simp [heq])
        cases s0 <;> simp [stepStmt, upd, stmtLhs] at hne ⊢ <;>
          simp [hne]
      calc execStmts oracle σ (s0 :: t) (stmtLhs s)
          = execStmts oracle (stepStmt oracle σ s0) t (stmtLhs s) := rfl
        _ = evalRhs oracle (stepStmt oracle σ s0) s := ih _ hnodup2 hsep2 s hs2
        _ = evalRhs oracle σ s :=
          (evalRhs_congr oracle σ _ s hstep).symm

/-- Unfolding of pass1 at a phi whose operand is a same-block phi. -/
theorem pass1_cons_same (B : List PhiNode) (ps : List PhiNode) (c : Nat)
    (m : List (Var × Var)) (x : Var) (p : PhiNode) (hop : p.op = .samePhi x) :
    pass1 B (p :: ps) c m =
      if trackedOf B x then
        if (lookupOld m x).isSome then pass1 B ps c m
        else (PStmt.assignVar c x :: (pass1 B ps (c + 1) ((x, c) :: m)).1,
              (pass1 B ps (c + 1) ((x, c) :: m)).2)
      else pass1 B ps c m := by
  rcases p with ⟨tgt, tr, op⟩
  cases op with
  | samePhi x0 =>
    have h : x0 = x := by injection hop
    subst h
    rfl
  | outVar x0 => exact absurd hop (by simp)
  | intCst k => exact absurd hop (by simp)
  | untranslatable => exact absurd hop (by simp)

/-- Unfolding of pass1 at a phi whose operand is not a same-block phi. -/
theorem pass1_cons_skip (B : List PhiNode) (ps : List PhiNode) (c : Nat)
    (m : List (Var × Var)) (p : PhiNode)
    (hop : ∀ x, p.op ≠ .samePhi x) :
    pass1 B (p :: ps) c m = pass1 B ps c m := by
  rcases p with ⟨tgt, tr, op⟩
  cases op with
  | samePhi x0 => exact absurd rfl (hop x0)
  | outVar x0 => rfl
  | intCst k => rfl
  | untranslatable => rfl

/-- Unfolding of the old-value map lookup at a cons cell. -/
theorem lookupOld_cons (k t : Var) (m : List (Var × Var)) (x : Var) :
    lookupOld ((k, t) :: m) x = if x = k then some t else lookupOld m x := rfl

/-- Invariants of the snapshot pass: the counter only grows; map entries are
preserved; every final map entry either came from the initial map or was
allocated in this run with a matching snapshot statement; every snapshot
statement records a tracked same-block value into a temporary allocated in
this run and registered in the final map; temporaries are pairwise distinct
and lie in the counter range; and every tracked same-block operand of the
worklist ends up in the final map. -/
theorem pass1_spec (B : List PhiNode) (ps : List PhiNode) (c : Nat)
    (m : List (Var × Var)) :
    c ≤ (pass1 B ps c m).2.2 ∧
    (∀ x t, lookupOld m x = some t →
      lookupOld (pass1 B ps c m).2.1 x = some t) ∧
    (∀ x t, lookupOld (pass1 B ps c m).2.1 x = some t →
      lookupOld m x = some t ∨
        (c ≤ t ∧ t < (pass1 B ps c m).2.2 ∧
         PStmt.assignVar t x ∈ (pass1 B ps c m).1 ∧ trackedOf B x = true)) ∧
    (∀ s ∈ (pass1 B ps c m).1, ∃ t x, s = PStmt.assignVar t x ∧
      c ≤ t ∧ t < (pass1 B ps c m).2.2 ∧
      lookupOld (pass1 B ps c m).2.1 x = some t ∧ trackedOf B x = true) ∧
    ((pass1 B ps c m).1.map stmtLhs).Nodup ∧
    (∀ l ∈ (pass1 B ps c m).1.map stmtLhs, c ≤ l ∧ l < (pass1 B ps c m).2.2) ∧
    (∀ p ∈ ps, ∀ x, p.op = .samePhi x → trackedOf B x = true →
      (lookupOld (pass1 B ps c m).2.1 x).isSome = true) := by
  induction ps generalizing c m with
  | nil =>
    refine ⟨le_refl c, fun x t h => h, fun x t h => Or.inl h, ?_, ?_, ?_, ?_⟩
    · intro s hs
      exact absurd hs (List.not_mem_nil s)
    · simp [pass1]
    · intro l hl
      exact absurd hl (by simp [pass1])
    · intro p hp
      exact absurd hp (List.not_mem_nil p)
  | cons p ps ih =>
    rcases hop : p.op with x | x | k | _
    case samePhi =>
      rw [pass1_cons_same B ps c m x p hop]
      by_cases htr : trackedOf B x
      · by_cases hlk : (lookupOld m x).isSome
        · rw [if_pos htr, if_pos hlk]
          obtain ⟨h1, h2, h3, h4, h5, h6, h7⟩ := ih c m
          refine ⟨h1, h2, h3, h4, h5, h6, ?_⟩
          intro q hq x2 hx2 htr2
          rcases List.mem_cons.mp hq with rfl | hq2
          · rw [hop] at hx2
            obtain rfl : x = x2 := by injection hx2
            obtain ⟨t, ht⟩ := Option.isSome_iff_exists.mp hlk
            rw [h2 x t ht]
            rfl
          · exact h7 q hq2 x2 hx2 htr2
        · rw [if_pos htr, if_neg hlk]
          dsimp only
          obtain ⟨h1, h2, h3, h4, h5, h6, h7⟩ := ih (c + 1) ((x, c) :: m)
          have hmx : lookupOld m x = none := by
            cases hmx2 : lookupOld m x with
            | none => rfl
            | some t => exact absurd (by rw [hmx2]; rfl) hlk
          have hself : lookupOld ((x, c) :: m) x = some c := by
            rw [lookupOld_cons, if_pos rfl]
          have hfinal_self : lookupOld (pass1 B ps (c + 1) ((x, c) :: m)).2.1 x
              = some c := h2 x c hself
          refine ⟨by omega, ?_, ?_, ?_, ?_, ?_, ?_⟩
          · intro x2 t hx2
            have hne : x2 ≠ x := by
              intro heq
              rw [heq, hmx] at hx2
              exact Option.noConfusion hx2
            exact h2 x2 t (by rw [lookupOld_cons, if_neg hne]; exact hx2)
          · intro x2 t hx2
            rcases h3 x2 t hx2 with hleft | ⟨ht1, ht2, ht3, ht4⟩
            · rw [lookupOld_cons] at hleft
              by_cases heq : x2 = x
              · subst heq
                rw [if_pos rfl] at hleft
                have hct : c = t := by injection hleft
                subst hct
                refine Or.inr ⟨?g1, ?g2, ?g3, ?g4⟩
                case g1 => exact le_refl c
                case g2 =>
                  show c < (pass1 B ps (c + 1) ((x2, c) :: m)).2.2
                  omega
                case g3 => exact List.mem_cons_self _ _
                case g4 => exact htr
              · rw [if_neg heq] at hleft
                exact Or.inl hleft
            · exact Or.inr ⟨by omega, ht2, List.mem_cons_of_mem _ ht3, ht4⟩
          · intro s hs
            rcases List.mem_cons.mp hs with rfl | hs2
            · exact ⟨c, x, rfl, le_refl c,
                (by omega : c < (pass1 B ps (c + 1) ((x, c) :: m)).2.2),
                hfinal_self, htr⟩
            · obtain ⟨t, x2, hst, ht1, ht2, ht3, ht4⟩ := h4 s hs2
              exact ⟨t, x2, hst, by omega, ht2, ht3, ht4⟩
          · rw [List.map_cons]
            refine List.nodup_cons.mpr ⟨?_, h5⟩
            intro hmem
            have h2 : c + 1 ≤ c := (h6 _ hmem).1
            omega
          · intro l hl
            rw [List.map_cons] at hl
            rcases List.mem_cons.mp hl with rfl | hl2
            · refine ⟨?_, ?_⟩
              · show l ≤ l
                exact le_refl l
              · show l < (pass1 B ps (l + 1) ((x, l) :: m)).2.2
                exact Nat.lt_of_lt_of_le (Nat.lt_succ_self l) h1
            · have h := h6 l hl2
              exact ⟨by omega, h.2⟩
          · intro q hq x2 hx2 htr2
            rcases List.mem_cons.mp hq with rfl | hq2
            · rw [hop] at hx2
              obtain rfl : x = x2 := by injection hx2
              rw [hfinal_self]
              rfl
            · exact h7 q hq2 x2 hx2 htr2
      · rw [if_neg htr]
        obtain ⟨h1, h2, h3, h4, h5, h6, h7⟩ := ih c m
        refine ⟨h1, h2, h3, h4, h5, h6, ?_⟩
        intro q hq x2 hx2 htr2
        rcases List.mem_cons.mp hq with rfl | hq2
        · rw [hop] at hx2
          obtain rfl : x = x2 := by injection hx2
          exact absurd htr2 htr
        · exact h7 q hq2 x2 hx2 htr2
    all_goals
      rw [pass1_cons_skip B ps c m p (by rw [hop]; simp)]
      obtain ⟨h1, h2, h3, h4, h5, h6, h7⟩ := ih c m
      refine ⟨h1, h2, h3, h4, h5, h6, ?_⟩
      intro q hq x2 hx2 htr2
      rcases List.mem_cons.mp hq with rfl | hq2
      · rw [hop] at hx2
        exact absurd hx2 (by simp)
      · exact h7 q hq2 x2 hx2 htr2

/-- A tracked same-block variable is the target of some phi of the block. -/
theorem trackedOf_mem (B : List PhiNode) (x : Var) (h : trackedOf B x = true) :
    x ∈ B.map PhiNode.target := by
  unfold trackedOf at h
  cases hf : B.find? (fun p => p.target == x) with
  | none => rw [hf] at h; exact Bool.noConfusion h
  | some q =>
    have hq := List.find?_some hf
    have hmem := List.mem_of_find?_eq_some hf
    have heq : q.target = x := by simpa using hq
    exact heq ▸ List.mem_map.mpr ⟨q, hmem, rfl⟩

/-- With pairwise distinct targets, trackedOf agrees with the phi's own flag. -/
theorem trackedOf_eq (B : List PhiNode) (q : PhiNode)
    (hnodup : (B.map PhiNode.target).Nodup) (hq : q ∈ B) :
    trackedOf B q.target = q.tracked := by
  induction B with
  | nil => exact absurd hq (List.not_mem_nil q)
  | cons h t ih =>
    rw [List.map_cons, List.nodup_cons] at hnodup
    rcases List.mem_cons.mp hq with rfl | hq2
    · simp [trackedOf, List.find?]
    · have hne : h.target ≠ q.target := by
        intro heq
        exact hnodup.1 (heq ▸ List.mem_map.mpr ⟨q, hq2, rfl⟩)
      have hcond : (h.target == q.target) = false := by simp [hne]
      simp only [trackedOf, List.find?, hcond]
      exact ih hnodup.2 hq2

/-- The second pass assigns exactly to the phi's target. -/
theorem pass2stmt_lhs (m : List (Var × Var)) (p : PhiNode) :
    stmtLhs (pass2stmt m p) = p.target := by
  rcases p with ⟨tgt, tr, op⟩
  cases op with
  | samePhi x =>
    dsimp [pass2stmt]
    cases lookupOld m x <;> rfl
  | outVar x => rfl
  | intCst k => rfl
  | untranslatable => rfl

/-- Unfolding of pass2stmt at a same-block operand found in the map. -/
theorem pass2stmt_same_hit (m : List (Var × Var)) (q : PhiNode) (x tmp : Var)
    (hq : q.op = .samePhi x) (hl : lookupOld m x = some tmp) :
    pass2stmt m q = .assignVar q.target tmp := by
  rcases q with ⟨tgt, tr, op⟩
  cases op with
  | samePhi x0 =>
    have h : x0 = x := by injection hq
    subst h
    simp [pass2stmt, hl]
  | outVar x0 => exact absurd hq (by simp)
  | intCst k0 => exact absurd hq (by simp)
  | untranslatable => exact absurd hq (by simp)

/-- Unfolding of pass2stmt at a same-block operand missing from the map. -/
theorem pass2stmt_same_miss (m : List (Var × Var)) (q : PhiNode) (x : Var)
    (hq : q.op = .samePhi x) (hl : lookupOld m x = none) :
    pass2stmt m q = .assignVar q.target x := by
  rcases q with ⟨tgt, tr, op⟩
  cases op with
  | samePhi x0 =>
    have h : x0 = x := by injection hq
    subst h
    simp [pass2stmt, hl]
  | outVar x0 => exact absurd hq (by simp)
  | intCst k0 => exact absurd hq (by simp)
  | untranslatable => exact absurd hq (by simp)

/-- Unfolding of pass2stmt at an outside variable operand. -/
theorem pass2stmt_out (m : List (Var × Var)) (q : PhiNode) (x : Var)
    (hq : q.op = .outVar x) : pass2stmt m q = .assignVar q.target x := by
  rcases q with ⟨tgt, tr, op⟩
  cases op with
  | samePhi x0 => exact absurd hq (by simp)
  | outVar x0 =>
    have h : x0 = x := by injection hq
    subst h
    rfl
  | intCst k0 => exact absurd hq (by simp)
  | untranslatable => exact absurd hq (by simp)

/-- Unfolding of pass2stmt at a constant operand. -/
theorem pass2stmt_cst (m : List (Var × Var)) (q : PhiNode) (k : Int)
    (hq : q.op = .intCst k) : pass2stmt m q = .assignCst q.target k := by
  rcases q with ⟨tgt, tr, op⟩
  cases op with
  | samePhi x0 => exact absurd hq (by simp)
  | outVar x0 => exact absurd hq (by simp)
  | intCst k0 =>
    have h : k0 = k := by injection hq
    subst h
    rfl
  | untranslatable => exact absurd hq (by simp)

/-- Unfolding of pass2stmt at an unclassifiable operand. -/
theorem pass2stmt_untr (m : List (Var × Var)) (q : PhiNode)
    (hq : q.op = .untranslatable) : pass2stmt m q = .havocStmt q.target := by
  rcases q with ⟨tgt, tr, op⟩
  cases op with
  | samePhi x0 => exact absurd hq (by simp)
  | outVar x0 => exact absurd hq (by simp)
  | intCst k0 => exact absurd hq (by simp)
  | untranslatable => rfl

/-- The statement of a tracked phi is among the second pass's output. -/
theorem pass2_mem (B : List PhiNode) (m : List (Var × Var)) (p : PhiNode)
    (hp : p ∈ B) (htr : p.tracked = true) :
    pass2stmt m p ∈ pass2 B m := by
  apply List.mem_filterMap.mpr
  exact ⟨p, hp, by rw [if_pos htr]⟩

/-- Destinations of the second pass form a sublist of the block's targets. -/
theorem pass2_lhs_sublist (B : List PhiNode) (m : List (Var × Var)) :
    ((pass2 B m).map stmtLhs).Sublist (B.map PhiNode.target) := by
  induction B with
  | nil => simp [pass2]
  | cons p t ih =>
    by_cases htr : p.tracked
    · rw [show pass2 (p :: t) m = pass2stmt m p :: pass2 t m from by
        simp [pass2, List.filterMap_cons, htr]]
      rw [List.map_cons, List.map_cons, pass2stmt_lhs]
      exact List.Sublist.cons₂ _ ih
    · rw [show pass2 (p :: t) m = pass2 t m from by
        simp [pass2, List.filterMap_cons, htr]]
      rw [List.map_cons]
      exact List.Sublist.cons _ ih

/-- Every destination of the second pass is the target of a tracked phi. -/
theorem pass2_lhs_mem (B : List PhiNode) (m : List (Var × Var)) (y : Var)
    (h : y ∈ (pass2 B m).map stmtLhs) :
    ∃ q ∈ B, q.tracked = true ∧ q.target = y := by
  obtain ⟨s, hs, rfl⟩ := List.mem_map.mp h
  obtain ⟨q, hq, hfq⟩ := List.mem_filterMap.mp hs
  by_cases htr : q.tracked
  · rw [if_pos htr] at hfq
    have hsq : pass2stmt m q = s := by injection hfq
    exact ⟨q, hq, htr, hsq ▸ (pass2stmt_lhs m q).symm⟩
  · rw [if_neg htr] at hfq
    exact Option.noConfusion hfq

/-- Execution distributes over concatenation. -/
theorem execStmts_append (oracle σ2 : Var → Int) (a b : List PStmt) :
    execStmts oracle σ2 (a ++ b) = execStmts oracle (execStmts oracle σ2 a) b := by
  simp [execStmts, List.foldl_append]

end Phi

/-- C1: the assignments emitted on an incoming edge have simultaneous-
assignment semantics.  For a block of phi nodes with pairwise distinct target
variables (all below the fresh-variable threshold n0), where a same-block
operand names a phi of the block and an outside operand names neither a phi
target nor a fresh variable, executing the emitted statements from the
predecessor's outgoing state σ gives every tracked phi's target the value its
incoming operand had in σ — even when the operand is another phi of the same
block, whose old value was snapshotted into a fresh temporary before any
destination phi was assigned — and an operand that cannot be classified as a
literal degrades to a havoc of the destination (an arbitrary oracle value, the
havoc statement being among the emitted statements). -/
theorem phi_edge_simultaneous_assignment
    (B : List Phi.PhiNode) (n0 : Nat) (σ oracle : Var → Int)
    (hnodup : (B.map Phi.PhiNode.target).Nodup)
    (hbound : ∀ p ∈ B, p.target < n0)
    (hout : ∀ p ∈ B, ∀ x, p.op = .outVar x →
      x < n0 ∧ x ∉ B.map Phi.PhiNode.target)
    (hsame : ∀ p ∈ B, ∀ x, p.op = .samePhi x → x ∈ B.map Phi.PhiNode.target) :
    ∀ p ∈ B, p.tracked = true →
      Phi.execStmts oracle σ (Phi.emitPhiEdge B n0) p.target
        = Phi.oldVal oracle σ p ∧
      (p.op = .untranslatable →
        Phi.PStmt.havocStmt p.target ∈ Phi.emitPhiEdge B n0) := by
  obtain ⟨h1, h2, h3, h4, h5, h6, h7⟩ := Phi.pass1_spec B B n0 []
  have htgt_lt : ∀ y, y ∈ B.map Phi.PhiNode.target → y < n0 := by
    intro y hy
    obtain ⟨q, hq, rfl⟩ := List.mem_map.mp hy
    exact hbound q hq
  -- pass 1 executes as a parallel snapshot: each temporary receives the
  -- pre-transfer value of its variable, and low variables are untouched.
  have hSsep : ∀ s ∈ (Phi.pass1 B B n0 []).1, ∀ r ∈ Phi.stmtReads s,
      r ∉ (Phi.pass1 B B n0 []).1.map Phi.stmtLhs := by
    intro s hs r hr hmem
    obtain ⟨t, x, rfl, _, _, _, htrx⟩ := h4 s hs
    have hrx : r = x := by simpa [Phi.stmtReads] using hr
    subst hrx
    have hlt : r < n0 := htgt_lt r (Phi.trackedOf_mem B r htrx)
    have hge : n0 ≤ r := (h6 r hmem).1
    exact absurd hlt (Nat.not_lt.mpr hge)
  have hSpar := Phi.execStmts_parallel oracle (Phi.pass1 B B n0 []).1 σ h5 hSsep
  have hlow : ∀ y, y < n0 →
      Phi.execStmts oracle σ (Phi.pass1 B B n0 []).1 y = σ y := by
    intro y hy
    apply Phi.execStmts_not_written
    intro hmem
    have hge : n0 ≤ y := (h6 y hmem).1
    omega
  have htmp : ∀ x t, Phi.lookupOld (Phi.pass1 B B n0 []).2.1 x = some t →
      Phi.execStmts oracle σ (Phi.pass1 B B n0 []).1 t = σ x := by
    intro x t hlk
    rcases h3 x t hlk with hleft | ⟨ht1, ht2, ht3, ht4⟩
    · exact absurd hleft (by simp [Phi.lookupOld])
    · have hps := hSpar (Phi.PStmt.assignVar t x) ht3
      simpa [Phi.stmtLhs, Phi.evalRhs] using hps
  -- pass 2 executes as a parallel assignment over the snapshotted state.
  have hsub := Phi.pass2_lhs_sublist B (Phi.pass1 B B n0 []).2.1
  have h2nodup : ((Phi.pass2 B (Phi.pass1 B B n0 []).2.1).map Phi.stmtLhs).Nodup :=
    List.Nodup.sublist hsub hnodup
  have h2lhs_lt : ∀ y, y ∈ (Phi.pass2 B (Phi.pass1 B B n0 []).2.1).map Phi.stmtLhs →
      y < n0 := fun y hy => htgt_lt y (hsub.subset hy)
  have h2sep : ∀ s ∈ Phi.pass2 B (Phi.pass1 B B n0 []).2.1,
      ∀ r ∈ Phi.stmtReads s,
      r ∉ (Phi.pass2 B (Phi.pass1 B B n0 []).2.1).map Phi.stmtLhs := by
    intro s hs r hr hmem
    obtain ⟨q, hq, hfq⟩ := List.mem_filterMap.mp hs
    by_cases hqt : q.tracked
    swap
    · rw [if_neg hqt] at hfq
      exact Option.noConfusion hfq
    rw [if_pos hqt] at hfq
    have hsq : Phi.pass2stmt (Phi.pass1 B B n0 []).2.1 q = s := by injection hfq
    subst hsq
    rcases hqop : q.op with x | x | k | _
    · cases hl : Phi.lookupOld (Phi.pass1 B B n0 []).2.1 x with
      | some tmp =>
        rw [Phi.pass2stmt_same_hit _ q x tmp hqop hl] at hr
        have hrt : r = tmp := by simpa [Phi.stmtReads] using hr
        subst hrt
        rcases h3 x r hl with hleft | ⟨ht1, _, _, _⟩
        · exact absurd hleft (by simp [Phi.lookupOld])
        · have hlt := h2lhs_lt r hmem
          exact absurd hlt (Nat.not_lt.mpr ht1)
      | none =>
        rw [Phi.pass2stmt_same_miss _ q x hqop hl] at hr
        have hrx : r = x := by simpa [Phi.stmtReads] using hr
        subst hrx
        obtain ⟨q2, hq2, hq2t, rfl⟩ := Phi.pass2_lhs_mem B _ r hmem
        have htr2 : Phi.trackedOf B q2.target = true := by
          rw [Phi.trackedOf_eq B q2 hnodup hq2]
          exact hq2t
        have hsome := h7 q hq q2.target hqop htr2
        rw [hl] at hsome
        exact Bool.noConfusion hsome
    · rw [Phi.pass2stmt_out _ q x hqop] at hr
      have hrx : r = x := by simpa [Phi.stmtReads] using hr
      subst hrx
      exact (hout q hq r hqop).2 (hsub.subset hmem)
    · rw [Phi.pass2stmt_cst _ q k hqop] at hr
      exact absurd hr (by simp [Phi.stmtReads])
    · rw [Phi.pass2stmt_untr _ q hqop] at hr
      exact absurd hr (by simp [Phi.stmtReads])
  have h2par := Phi.execStmts_parallel oracle
    (Phi.pass2 B (Phi.pass1 B B n0 []).2.1)
    (Phi.execStmts oracle σ (Phi.pass1 B B n0 []).1) h2nodup h2sep
  -- assemble: run the snapshots, then read off each phi's assignment.
  intro p hp htr
  have hmem2 := Phi.pass2_mem B (Phi.pass1 B B n0 []).2.1 p hp htr
  have hexec : Phi.execStmts oracle σ (Phi.emitPhiEdge B n0) p.target
      = Phi.evalRhs oracle (Phi.execStmts oracle σ (Phi.pass1 B B n0 []).1)
          (Phi.pass2stmt (Phi.pass1 B B n0 []).2.1 p) := by
    rw [Phi.emitPhiEdge, Phi.execStmts_append]
    rw [show p.target = Phi.stmtLhs (Phi.pass2stmt (Phi.pass1 B B n0 []).2.1 p)
      from (Phi.pass2stmt_lhs _ p).symm]
    exact h2par _ hmem2
  constructor
  · rw [hexec]
    rcases hpop : p.op with x | x | k | _
    · cases hl : Phi.lookupOld (Phi.pass1 B B n0 []).2.1 x with
      | some tmp =>
        rw [Phi.pass2stmt_same_hit _ p x tmp hpop hl]
        have hval := htmp x tmp hl
        have hold : Phi.oldVal oracle σ p = σ x := by
          rw [Phi.oldVal, hpop]
        rw [hold]
        simpa [Phi.evalRhs] using hval
      | none =>
        rw [Phi.pass2stmt_same_miss _ p x hpop hl]
        have hxlt : x < n0 := htgt_lt x (hsame p hp x hpop)
        have hold : Phi.oldVal oracle σ p = σ x := by
          rw [Phi.oldVal, hpop]
        rw [hold]
        simpa [Phi.evalRhs] using hlow x hxlt
    · rw [Phi.pass2stmt_out _ p x hpop]
      have hxlt : x < n0 := (hout p hp x hpop).1
      have hold : Phi.oldVal oracle σ p = σ x := by
        rw [Phi.oldVal, hpop]
      rw [hold]
      simpa [Phi.evalRhs] using hlow x hxlt
    · rw [Phi.pass2stmt_cst _ p k hpop]
      have hold : Phi.oldVal oracle σ p = k := by
        rw [Phi.oldVal, hpop]
      rw [hold]
      rfl
    · rw [Phi.pass2stmt_untr _ p hpop]
      have hold : Phi.oldVal oracle σ p = oracle p.target := by
        rw [Phi.oldVal, hpop]
      rw [hold]
      rfl
  · intro hpop
    apply List.mem_append_right
    exact (Phi.pass2stmt_untr _ p hpop) ▸ hmem2

/-- Witness for C1: a block with two cross-referencing phis, a = phi(b) and
b = phi(a) on the translated edge, starting from a state with a = 10 and
b = 20, ends with a = 20 and b = 10 — a swap, not a sequential overwrite. -/
theorem phi_edge_simultaneous_assignment_witness :
    Phi.execStmts (fun _ => 0)
      (fun v => if v = 0 then 10 else if v = 1 then 20 else 0)
      (Phi.emitPhiEdge [⟨0, true, .samePhi 1⟩, ⟨1, true, .samePhi 0⟩] 2) 0
      = 20 ∧
    Phi.execStmts (fun _ => 0)
      (fun v => if v = 0 then 10 else if v = 1 then 20 else 0)
      (Phi.emitPhiEdge [⟨0, true, .samePhi 1⟩, ⟨1, true, .samePhi 0⟩] 2) 1
      = 10 := by
  have h := phi_edge_simultaneous_assignment
    [⟨0, true, .samePhi 1⟩, ⟨1, true, .samePhi 0⟩] 2
    (fun v => if v = 0 then 10 else if v = 1 then 20 else 0) (fun _ => 0)
    (by decide) (by decide)
    (by
      intro p hp x hx
      rcases List.mem_cons.mp hp with rfl | hp2
      · exact absurd hx (by simp)
      rcases List.mem_cons.mp hp2 with rfl | hp3
      · exact absurd hx (by simp)
      · exact absurd hp3 (List.not_mem_nil p))
    (by
      intro p hp x hx
      rcases List.mem_cons.mp hp with rfl | hp2
      · have hx1 : (1 : Var) = x := by injection hx
        subst hx1
        decide
      rcases List.mem_cons.mp hp2 with rfl | hp3
      · have hx0 : (0 : Var) = x := by injection hx
        subst hx0
        decide
      · exact absurd hp3 (List.not_mem_nil p))
  constructor
  · have h1 := (h ⟨0, true, .samePhi 1⟩ (by decide) rfl).1
    exact h1.trans (by decide)
  · have h2 := (h ⟨1, true, .samePhi 0⟩ (by decide) rfl).1
    exact h2.trans (by decide)

end CrabLlvm
